import Mathlib

set_option maxRecDepth 8000

/-!
Shallow embedding of the `type-inference` repository (`src/lib.rs`).

The embedding covers the `Value`, `Type` and `Expr` data model (structural
equality, the manual `Hash` implementation, `type_of` inference) and the
character-level recursive-descent parser (`struct Parser` with a `Vec<char>`
body and a cursor index).

Modelling conventions:
* A Rust `HashMap<Value, Value>` is modelled as the association list of its
  entries in iteration order; Rust's `HashMap` equality (same length, every
  entry of one found in the other) is `Value.beq`, and the `Hash`
  implementation, which just forwards the fields of each entry to the hasher
  in iteration order, is `Value.hash_stream` (the exact sequence of primitive
  hasher writes; any concrete hasher is a function of this sequence).
* Rust functions that can `panic!` (or `unwrap` on `None`) return `Option`
  and yield `none` on the panicking path.
* The `u32` arithmetic in `consume_integer` (`digit * 10_u32.pow(i)`) is
  modelled with explicit `% 2 ^ 32` (wrapping semantics).
* The recursive-descent loops always advance the cursor, so each recursive
  parser takes an explicit fuel argument; the top-level `parse` supplies
  `4 * length + 16` fuel, more than any run can consume on its input.
-/

/-- Rust `enum Type` (lib.rs 12-19): `Bool`, `Integer`, `String`,
`List(Vec<Type>)`, `Map(Vec<Type>, Vec<Type>)`, in declaration order (which
fixes the derived `Ord`).  Named `Ty` because `Type` is reserved in Lean. -/
inductive Ty where
  | bool
  | integer
  | string
  | list : List Ty → Ty
  | map : List Ty → List Ty → Ty

/- The derived `Ord` on `Type`: variants compare by declaration order, the
`Vec<Type>` payloads compare lexicographically (`Ty.cmpList`), and `Map`
compares its two payloads lexicographically in order. -/
mutual
def Ty.cmp : Ty → Ty → Ordering
  | .bool, .bool => .eq
  | .bool, _ => .lt
  | _, .bool => .gt
  | .integer, .integer => .eq
  | .integer, _ => .lt
  | _, .integer => .gt
  | .string, .string => .eq
  | .string, _ => .lt
  | _, .string => .gt
  | .list a, .list b => Ty.cmpList a b
  | .list _, _ => .lt
  | _, .list _ => .gt
  | .map k1 v1, .map k2 v2 =>
    match Ty.cmpList k1 k2 with
    | .eq => Ty.cmpList v1 v2
    | o => o

def Ty.cmpList : List Ty → List Ty → Ordering
  | [], [] => .eq
  | [], _ :: _ => .lt
  | _ :: _, [] => .gt
  | a :: as, b :: bs =>
    match Ty.cmp a b with
    | .eq => Ty.cmpList as bs
    | o => o
end

mutual
theorem Ty.cmp_refl : (a : Ty) → Ty.cmp a a = .eq
  | .bool => rfl
  | .integer => rfl
  | .string => rfl
  | .list ts => by simp [Ty.cmp, Ty.cmpList_refl ts]
  | .map ks vs => by simp [Ty.cmp, Ty.cmpList_refl ks, Ty.cmpList_refl vs]

theorem Ty.cmpList_refl : (l : List Ty) → Ty.cmpList l l = .eq
  | [] => rfl
  | t :: ts => by simp [Ty.cmpList, Ty.cmp_refl t, Ty.cmpList_refl ts]
end

mutual
theorem Ty.eq_of_cmp_eq : (a b : Ty) → Ty.cmp a b = .eq → a = b
  | .bool, .bool, _ => rfl
  | .integer, .integer, _ => rfl
  | .string, .string, _ => rfl
  | .list as, .list bs, h => by
    have h' : Ty.cmpList as bs = .eq := by simpa [Ty.cmp] using h
    rw [Ty.eqList_of_cmpList_eq as bs h']
  | .map ka va, .map kb vb, h => by
    rw [Ty.cmp] at h
    cases hk : Ty.cmpList ka kb with
    | lt => rw [hk] at h; simp at h
    | gt => rw [hk] at h; simp at h
    | eq =>
      rw [hk] at h; simp only [] at h
      have hv : Ty.cmpList va vb = .eq := h
      rw [Ty.eqList_of_cmpList_eq ka kb hk, Ty.eqList_of_cmpList_eq va vb hv]
  | .bool, .integer, h | .bool, .string, h | .bool, .list _, h | .bool, .map _ _, h
  | .integer, .bool, h | .integer, .string, h | .integer, .list _, h | .integer, .map _ _, h
  | .string, .bool, h | .string, .integer, h | .string, .list _, h | .string, .map _ _, h
  | .list _, .bool, h | .list _, .integer, h | .list _, .string, h | .list _, .map _ _, h
  | .map _ _, .bool, h | .map _ _, .integer, h | .map _ _, .string, h | .map _ _, .list _, h => by
    simp [Ty.cmp] at h

theorem Ty.eqList_of_cmpList_eq : (as bs : List Ty) → Ty.cmpList as bs = .eq → as = bs
  | [], [], _ => rfl
  | [], _ :: _, h => by simp [Ty.cmpList] at h
  | _ :: _, [], h => by simp [Ty.cmpList] at h
  | a :: as, b :: bs, h => by
    rw [Ty.cmpList] at h
    cases ha : Ty.cmp a b with
    | lt => rw [ha] at h; simp at h
    | gt => rw [ha] at h; simp at h
    | eq =>
      rw [ha] at h; simp only [] at h
      have h' : Ty.cmpList as bs = .eq := h
      rw [Ty.eq_of_cmp_eq a b ha, Ty.eqList_of_cmpList_eq as bs h']
end

mutual
theorem Ty.cmp_swap : (a b : Ty) → Ty.cmp b a = (Ty.cmp a b).swap
  | .bool, .bool => rfl
  | .integer, .integer => rfl
  | .string, .string => rfl
  | .list as, .list bs => by
    simp [Ty.cmp, Ty.cmpList_swap as bs]
  | .map ka va, .map kb vb => by
    rw [Ty.cmp, Ty.cmp, Ty.cmpList_swap ka kb, Ty.cmpList_swap va vb]
    cases Ty.cmpList ka kb <;> rfl
  | .bool, .integer | .bool, .string | .bool, .list _ | .bool, .map _ _
  | .integer, .bool | .integer, .string | .integer, .list _ | .integer, .map _ _
  | .string, .bool | .string, .integer | .string, .list _ | .string, .map _ _
  | .list _, .bool | .list _, .integer | .list _, .string | .list _, .map _ _
  | .map _ _, .bool | .map _ _, .integer | .map _ _, .string | .map _ _, .list _ => rfl

theorem Ty.cmpList_swap : (as bs : List Ty) → Ty.cmpList bs as = (Ty.cmpList as bs).swap
  | [], [] => rfl
  | [], _ :: _ => rfl
  | _ :: _, [] => rfl
  | a :: as, b :: bs => by
    rw [Ty.cmpList, Ty.cmpList, Ty.cmp_swap a b, Ty.cmpList_swap as bs]
    cases Ty.cmp a b <;> rfl
end

theorem Ty.lt_of_gt (a b : Ty) (h : Ty.cmp a b = .gt) : Ty.cmp b a = .lt := by
  rw [Ty.cmp_swap a b, h]; rfl

/-- Tag of a variant, in declaration order; different tags compare by tag. -/
def Ty.tag : Ty → Nat
  | .bool => 0
  | .integer => 1
  | .string => 2
  | .list _ => 3
  | .map _ _ => 4

theorem Ty.cmp_of_tag_lt : ∀ a b : Ty, Ty.tag a < Ty.tag b → Ty.cmp a b = .lt := by
  intro a b h
  cases a <;> cases b <;> simp [Ty.tag] at h <;> rfl

theorem Ty.tag_le_of_cmp_lt : ∀ a b : Ty, Ty.cmp a b = .lt → Ty.tag a ≤ Ty.tag b := by
  intro a b h
  cases a <;> cases b <;> simp_all [Ty.cmp, Ty.tag]

mutual
theorem Ty.cmp_trans : (a b c : Ty) → Ty.cmp a b = .lt → Ty.cmp b c = .lt → Ty.cmp a c = .lt
  | a, b, c, h1, h2 => by
    rcases Nat.lt_or_ge (Ty.tag a) (Ty.tag c) with hlt | hge
    · exact Ty.cmp_of_tag_lt a c hlt
    · have hab := Ty.tag_le_of_cmp_lt a b h1
      have hbc := Ty.tag_le_of_cmp_lt b c h2
      have htags : Ty.tag a = Ty.tag b ∧ Ty.tag b = Ty.tag c := by omega
      obtain ⟨hab', hbc'⟩ := htags
      cases a <;> cases b <;> cases c <;> simp only [Ty.tag] at hab' hbc' <;>
          first
            | omega
            | (simp only [Ty.cmp] at h1; exact Ordering.noConfusion h1)
            | skip
      · rename_i as bs cs
        rw [Ty.cmp] at h1 h2 ⊢
        exact Ty.cmpList_trans as bs cs h1 h2
      · rename_i ka va kb vb kc vc
        rw [Ty.cmp] at h1 h2 ⊢
        cases hk1 : Ty.cmpList ka kb <;> rw [hk1] at h1 <;> simp only [] at h1
        · cases hk2 : Ty.cmpList kb kc <;> rw [hk2] at h2 <;> simp only [] at h2
          · have hac := Ty.cmpList_trans ka kb kc hk1 hk2
            simp only [hac]
          · have hkk : Ty.cmpList ka kc = .lt := by
              rw [← Ty.eqList_of_cmpList_eq kb kc hk2]
              exact hk1
            simp only [hkk]
          · exact absurd h2 (by simp)
        · have hke := Ty.eqList_of_cmpList_eq ka kb hk1
          subst hke
          cases hk2 : Ty.cmpList ka kc <;> rw [hk2] at h2 <;> simp only [] at h2
          · exact Ty.cmpList_trans va vb vc h1 h2
          · exact absurd h2 (by simp)
        · exact absurd h1 (by simp)

theorem Ty.cmpList_trans :
    (as bs cs : List Ty) → Ty.cmpList as bs = .lt → Ty.cmpList bs cs = .lt →
      Ty.cmpList as cs = .lt
  | [], [], _, h1, _ => by simp [Ty.cmpList] at h1
  | [], _ :: _, [], _, h2 => by simp [Ty.cmpList] at h2
  | [], _ :: _, _ :: _, _, _ => by simp [Ty.cmpList]
  | _ :: _, [], _, h1, _ => by simp [Ty.cmpList] at h1
  | _ :: _, _ :: _, [], _, h2 => by simp [Ty.cmpList] at h2
  | a :: as, b :: bs, c :: cs, h1, h2 => by
    rw [Ty.cmpList] at h1 h2 ⊢
    cases hab : Ty.cmp a b <;> rw [hab] at h1 <;> simp only [] at h1
    · cases hbc : Ty.cmp b c <;> rw [hbc] at h2 <;> simp only [] at h2
      · have hac := Ty.cmp_trans a b c hab hbc
        simp only [hac]
      · have hce := Ty.eq_of_cmp_eq b c hbc
        subst hce
        simp only [hab]
      · exact absurd h2 (by simp)
    · have hbe := Ty.eq_of_cmp_eq a b hab
      rw [hbe]
      cases hbc : Ty.cmp b c <;> rw [hbc] at h2 <;> simp only [] at h2
      · exact Ty.cmpList_trans as bs cs h1 h2
      · exact absurd h2 (by simp)
    · exact absurd h1 (by simp)
end

instance : LT Ty := ⟨fun a b => Ty.cmp a b = .lt⟩

theorem Ty.lt_iff (a b : Ty) : a < b ↔ Ty.cmp a b = .lt := Iff.rfl

theorem Ty.lt_asymm' (a b : Ty) (h1 : a < b) (h2 : b < a) : False := by
  rw [Ty.lt_iff] at h1 h2
  rw [Ty.cmp_swap a b, h1] at h2
  simp [Ordering.swap] at h2

theorem Ty.ne_of_lt' (a b : Ty) (h : a < b) : a ≠ b := by
  rintro rfl
  rw [Ty.lt_iff, Ty.cmp_refl] at h
  simp at h

theorem Ty.lt_irrefl' (a : Ty) (h : a < a) : False := Ty.ne_of_lt' a a h rfl

instance : DecidableEq Ty := fun a b =>
  decidable_of_iff (Ty.cmp a b = .eq) ⟨Ty.eq_of_cmp_eq a b, fun h => h ▸ Ty.cmp_refl a⟩

/-- One step of the canonicalization used throughout the source: Rust's
`HashSet` collection followed by `Vec::sort` yields the strictly sorted
duplicate-free enumeration of the distinct elements, which `canonize`
computes directly by dedup-inserting into a sorted accumulator. -/
def insertSorted (t : Ty) : List Ty → List Ty
  | [] => [t]
  | u :: us =>
    match Ty.cmp t u with
    | .lt => t :: u :: us
    | .eq => u :: us
    | .gt => u :: insertSorted t us

/-- Model of `let mut v: Vec<Type> = hashset.into_iter().collect(); v.sort();`:
the unique strictly-sorted, duplicate-free list with the same members. -/
def canonize (ts : List Ty) : List Ty :=
  ts.foldl (fun acc t => insertSorted t acc) []

theorem mem_insertSorted : ∀ (t : Ty) (l : List Ty) (x : Ty),
    x ∈ insertSorted t l ↔ x = t ∨ x ∈ l
  | t, [], x => by simp [insertSorted]
  | t, u :: us, x => by
    rw [insertSorted]
    cases h : Ty.cmp t u
    · simp only []
      rw [List.mem_cons]
    · have ht := Ty.eq_of_cmp_eq t u h
      subst ht
      simp only []
      rw [List.mem_cons]
      tauto
    · simp only []
      rw [List.mem_cons, List.mem_cons, mem_insertSorted t us x]
      tauto

theorem pairwise_insertSorted : ∀ (t : Ty) (l : List Ty),
    l.Pairwise (· < ·) → (insertSorted t l).Pairwise (· < ·)
  | t, [], _ => by simp [insertSorted]
  | t, u :: us, hp => by
    rw [List.pairwise_cons] at hp
    obtain ⟨hu, hus⟩ := hp
    rw [insertSorted]
    cases h : Ty.cmp t u
    · refine List.Pairwise.cons ?_ (List.Pairwise.cons hu hus)
      intro x hx
      rcases List.mem_cons.mp hx with rfl | hx
      · exact h
      · exact Ty.cmp_trans t u x h (hu x hx)
    · exact List.Pairwise.cons hu hus
    · refine List.Pairwise.cons ?_ (pairwise_insertSorted t us hus)
      intro x hx
      rcases (mem_insertSorted t us x).mp hx with rfl | hx
      · exact Ty.lt_of_gt x u h
      · exact hu x hx

theorem pairwise_canonize_aux : ∀ (ts acc : List Ty),
    acc.Pairwise (· < ·) → (ts.foldl (fun acc t => insertSorted t acc) acc).Pairwise (· < ·)
  | [], _, h => h
  | t :: ts, acc, h =>
    pairwise_canonize_aux ts (insertSorted t acc) (pairwise_insertSorted t acc h)

/-- The result of `canonize` is strictly sorted in the derived `Ord`. -/
theorem pairwise_canonize (ts : List Ty) : (canonize ts).Pairwise (· < ·) :=
  pairwise_canonize_aux ts [] List.Pairwise.nil

/-- A strictly sorted list has no duplicates. -/
theorem nodup_of_pairwise_lt (l : List Ty) (h : l.Pairwise (· < ·)) : l.Nodup :=
  h.imp fun hlt => Ty.ne_of_lt' _ _ hlt

theorem nodup_canonize (ts : List Ty) : (canonize ts).Nodup :=
  nodup_of_pairwise_lt _ (pairwise_canonize ts)

theorem mem_canonize_aux : ∀ (ts acc : List Ty) (x : Ty),
    x ∈ ts.foldl (fun acc t => insertSorted t acc) acc ↔ x ∈ acc ∨ x ∈ ts
  | [], acc, x => by simp
  | t :: ts, acc, x => by
    rw [List.foldl_cons, mem_canonize_aux ts (insertSorted t acc) x, mem_insertSorted t acc x,
      List.mem_cons]
    tauto

/-- `canonize` preserves membership exactly. -/
theorem mem_canonize (ts : List Ty) (x : Ty) : x ∈ canonize ts ↔ x ∈ ts := by
  rw [canonize, mem_canonize_aux ts [] x]
  simp

/-- Two strictly sorted lists with the same members are equal. -/
theorem sorted_eq_of_mem_iff : ∀ (l1 l2 : List Ty),
    l1.Pairwise (· < ·) → l2.Pairwise (· < ·) → (∀ x, x ∈ l1 ↔ x ∈ l2) → l1 = l2
  | [], [], _, _, _ => rfl
  | [], b :: t2, _, _, hm => by
    have := (hm b).mpr (List.mem_cons_self b t2)
    simp at this
  | a :: t1, [], _, _, hm => by
    have := (hm a).mp (List.mem_cons_self a t1)
    simp at this
  | a :: t1, b :: t2, h1, h2, hm => by
    rw [List.pairwise_cons] at h1 h2
    obtain ⟨ha, h1⟩ := h1
    obtain ⟨hb, h2⟩ := h2
    have hab : a = b := by
      rcases List.mem_cons.mp ((hm a).mp (List.mem_cons_self a t1)) with h | h
      · exact h
      · rcases List.mem_cons.mp ((hm b).mpr (List.mem_cons_self b t2)) with h' | h'
        · exact h'.symm
        · exact (Ty.lt_asymm' a b (ha b h') (hb a h)).elim
    subst hab
    have hm' : ∀ x, x ∈ t1 ↔ x ∈ t2 := by
      intro x
      constructor
      · intro hx
        rcases List.mem_cons.mp ((hm x).mp (List.mem_cons.mpr (Or.inr hx))) with h | h
        · subst h
          exact absurd (ha x hx) (fun hc => Ty.lt_irrefl' x hc)
        · exact h
      · intro hx
        rcases List.mem_cons.mp ((hm x).mpr (List.mem_cons.mpr (Or.inr hx))) with h | h
        · subst h
          exact absurd (hb x hx) (fun hc => Ty.lt_irrefl' x hc)
        · exact h
    rw [sorted_eq_of_mem_iff t1 t2 h1 h2 hm']

/-- `canonize` depends only on the set of members of its input. -/
theorem canonize_eq_of_mem_iff (xs ys : List Ty) (h : ∀ x, x ∈ xs ↔ x ∈ ys) :
    canonize xs = canonize ys :=
  sorted_eq_of_mem_iff _ _ (pairwise_canonize xs) (pairwise_canonize ys)
    (fun x => by rw [mem_canonize, mem_canonize]; exact h x)

/-- Canonicalization is idempotent. -/
theorem canonize_idem (ts : List Ty) : canonize (canonize ts) = canonize ts :=
  sorted_eq_of_mem_iff _ _ (pairwise_canonize (canonize ts)) (pairwise_canonize ts)
    (fun x => by rw [mem_canonize, mem_canonize])

/-- Boolean membership of a `Ty` in a list, via the derived equality. -/
def tyMem (t : Ty) (l : List Ty) : Bool :=
  l.any (fun u => decide (Ty.cmp t u = .eq))

/-- Boolean test that two lists of `Ty` have the same set of members. -/
def sameTySet (xs ys : List Ty) : Bool :=
  xs.all (fun t => tyMem t ys) && ys.all (fun t => tyMem t xs)

theorem tyMem_iff (t : Ty) (l : List Ty) : tyMem t l = true ↔ t ∈ l := by
  rw [tyMem, List.any_eq_true]
  constructor
  · rintro ⟨u, hu, he⟩
    rw [decide_eq_true_eq] at he
    rw [Ty.eq_of_cmp_eq t u he]
    exact hu
  · intro h
    exact ⟨t, h, by rw [decide_eq_true_eq]; exact Ty.cmp_refl t⟩

theorem sameTySet_iff (xs ys : List Ty) :
    sameTySet xs ys = true ↔ ∀ t, t ∈ xs ↔ t ∈ ys := by
  rw [sameTySet, Bool.and_eq_true, List.all_eq_true, List.all_eq_true]
  constructor
  · rintro ⟨h1, h2⟩ t
    constructor
    · intro ht
      exact (tyMem_iff t ys).mp (h1 t ht)
    · intro ht
      exact (tyMem_iff t xs).mp (h2 t ht)
  · intro h
    exact ⟨fun t ht => (tyMem_iff t ys).mpr ((h t).mp ht),
      fun t ht => (tyMem_iff t xs).mpr ((h t).mpr ht)⟩

/- A `Ty` is in canonical form when every member list inside it is strictly
sorted (hence duplicate-free) and all members are themselves canonical. -/
mutual
def TyCanonical : Ty → Prop
  | .bool => True
  | .integer => True
  | .string => True
  | .list ts => ts.Pairwise (· < ·) ∧ TyAllCanonical ts
  | .map ks vs => ks.Pairwise (· < ·) ∧ TyAllCanonical ks ∧ vs.Pairwise (· < ·) ∧ TyAllCanonical vs

def TyAllCanonical : List Ty → Prop
  | [] => True
  | t :: ts => TyCanonical t ∧ TyAllCanonical ts
end

theorem tyAllCanonical_iff : ∀ l : List Ty, TyAllCanonical l ↔ ∀ t ∈ l, TyCanonical t
  | [] => by simp [TyAllCanonical]
  | t :: ts => by
    rw [TyAllCanonical, tyAllCanonical_iff ts]
    constructor
    · rintro ⟨h1, h2⟩ x hx
      rcases List.mem_cons.mp hx with rfl | hx
      · exact h1
      · exact h2 x hx
    · intro h
      exact ⟨h t (List.mem_cons_self t ts), fun x hx => h x (List.mem_cons.mpr (Or.inr hx))⟩

/-- Rust `enum Value` (lib.rs 3-10): `Bool(bool)`, `Integer(i64)`,
`String(String)`, `List(Vec<Value>)`, `Map(HashMap<Value, Value>)`.  A map is
modelled as the association list of its entries in iteration order (a
`HashMap`'s iteration order is arbitrary and is not part of the value's
identity, which is why it is kept explicit here). -/
inductive Value where
  | bool : Bool → Value
  | integer : Int → Value
  | string : String → Value
  | list : List Value → Value
  | map : List (Value × Value) → Value

/- Derived `PartialEq` for `Value` (from `#[derive(PartialEq)]`): tags and
contents compare recursively; `HashMap` equality is length equality plus
every entry of the left map being present (by key lookup) in the right map,
independent of entry order.  The recursion is fueled (the termination measure
is the combined size of both arguments, not a structural descent); the
wrapper `Value.beq` supplies more fuel than any comparison can consume. -/
mutual
def Value.beqF : Nat → Value → Value → Bool
  | 0, _, _ => false
  | _ + 1, .bool a, .bool b => a == b
  | _ + 1, .integer a, .integer b => a == b
  | _ + 1, .string a, .string b => a == b
  | fuel + 1, .list a, .list b => Value.beqListF fuel a b
  | fuel + 1, .map a, .map b => a.length == b.length && Value.beqMapSubF fuel a b
  | _ + 1, _, _ => false

def Value.beqListF : Nat → List Value → List Value → Bool
  | 0, _, _ => false
  | _ + 1, [], [] => true
  | fuel + 1, a :: as, b :: bs => Value.beqF fuel a b && Value.beqListF fuel as bs
  | _ + 1, _, _ => false

def Value.beqMapSubF : Nat → List (Value × Value) → List (Value × Value) → Bool
  | 0, _, _ => false
  | _ + 1, [], _ => true
  | fuel + 1, (k, v) :: rest, b => Value.containsPairF fuel k v b && Value.beqMapSubF fuel rest b

def Value.containsPairF : Nat → Value → Value → List (Value × Value) → Bool
  | 0, _, _, _ => false
  | _ + 1, _, _, [] => false
  | fuel + 1, k, v, (k', v') :: rest =>
    if Value.beqF fuel k k' then Value.beqF fuel v v' else Value.containsPairF fuel k v rest
end

/- Computable size of a `Value`, used to pre-compute sufficient fuel for
`Value.beqF` (every recursive call strictly decreases the combined size). -/
mutual
def Value.size : Value → Nat
  | .bool _ => 1
  | .integer _ => 1
  | .string _ => 1
  | .list l => 1 + Value.sizeList l
  | .map m => 1 + Value.sizePairs m

def Value.sizeList : List Value → Nat
  | [] => 1
  | v :: vs => 1 + Value.size v + Value.sizeList vs

def Value.sizePairs : List (Value × Value) → Nat
  | [] => 1
  | (k, v) :: rest => 1 + Value.size k + Value.size v + Value.sizePairs rest
end

/-- Rust `impl PartialEq for Value` (derived, lib.rs 3): structural equality,
order-sensitive for `List`, key-based (order-insensitive) for `Map`. -/
def Value.beq (a b : Value) : Bool :=
  Value.beqF (Value.size a + Value.size b) a b

/-- One primitive write made to a `std::hash::Hasher`: the `Hash`
implementations of `bool`, `i64` and `String` each feed one primitive datum
to the hasher state. -/
inductive HashTok where
  | hb : Bool → HashTok
  | hi : Int → HashTok
  | hs : String → HashTok
deriving DecidableEq

/- Rust `impl Hash for Value` (lib.rs 21-40): atoms hash their payload;
`List(l)` hashes each item in order; `Map(m)` hashes each key and value *in
iteration order* (`for (k, v) in m { k.hash(state); v.hash(state); }`).
A `Hasher` is a function of the sequence of primitive writes it receives, so
the hash value of a `Value` under any fixed hasher is a function of this
stream, and two values with different streams hash differently under any
injective-on-streams hasher. -/
mutual
def Value.hash_stream : Value → List HashTok
  | .bool b => [.hb b]
  | .integer i => [.hi i]
  | .string s => [.hs s]
  | .list l => Value.hash_stream_list l
  | .map m => Value.hash_stream_pairs m

def Value.hash_stream_list : List Value → List HashTok
  | [] => []
  | v :: vs => Value.hash_stream v ++ Value.hash_stream_list vs

def Value.hash_stream_pairs : List (Value × Value) → List HashTok
  | [] => []
  | (k, v) :: rest => Value.hash_stream k ++ Value.hash_stream v ++ Value.hash_stream_pairs rest
end

/-- Numeric encoding of one primitive hasher write (the `i64` is written as
its 64-bit two's-complement pattern). -/
def tokCode : HashTok → Nat
  | .hb b => if b then 1 else 0
  | .hi i => (i % (2 ^ 64 : Int)).toNat
  | .hs s => s.data.foldl (fun acc c => acc * 1114112 + c.toNat) 1

/-- One step of a concrete sequential (order-sensitive) 64-bit hasher in the
style of FNV: absorb one primitive write into the state. -/
def hashCombine (st : Nat) (t : HashTok) : Nat :=
  (st * 1099511628211 + tokCode t) % 2 ^ 64

/-- The hash of a `Value` under the concrete sequential hasher: fold the
write stream produced by `impl Hash for Value` through the state. -/
def Value.hash_with (v : Value) : Nat :=
  (Value.hash_stream v).foldl hashCombine 14695981039346656037

/- Rust `Value::type_of` (lib.rs 42-72): atoms map to the matching atomic
type; `List` collects the item types into a `HashSet`, sorts, and wraps;
`Map` does the same independently for key types and value types. -/
mutual
def Value.type_of : Value → Ty
  | .bool _ => .bool
  | .integer _ => .integer
  | .string _ => .string
  | .list l => .list (canonize (Value.typeOfList l))
  | .map m => .map (canonize (Value.typeOfKeys m)) (canonize (Value.typeOfVals m))

def Value.typeOfList : List Value → List Ty
  | [] => []
  | v :: vs => Value.type_of v :: Value.typeOfList vs

def Value.typeOfKeys : List (Value × Value) → List Ty
  | [] => []
  | (k, _) :: rest => Value.type_of k :: Value.typeOfKeys rest

def Value.typeOfVals : List (Value × Value) → List Ty
  | [] => []
  | (_, v) :: rest => Value.type_of v :: Value.typeOfVals rest
end

mutual
theorem Value.typeOf_canonical : (v : Value) → TyCanonical (Value.type_of v)
  | .bool _ => by rw [Value.type_of, TyCanonical]; trivial
  | .integer _ => by rw [Value.type_of, TyCanonical]; trivial
  | .string _ => by rw [Value.type_of, TyCanonical]; trivial
  | .list l => by
    rw [Value.type_of, TyCanonical]
    refine ⟨pairwise_canonize _, ?_⟩
    rw [tyAllCanonical_iff]
    intro t ht
    rw [mem_canonize] at ht
    exact Value.typeOfList_canonical l t ht
  | .map m => by
    rw [Value.type_of, TyCanonical]
    refine ⟨pairwise_canonize _, ?_, pairwise_canonize _, ?_⟩
    · rw [tyAllCanonical_iff]
      intro t ht
      rw [mem_canonize] at ht
      exact Value.typeOfKeys_canonical m t ht
    · rw [tyAllCanonical_iff]
      intro t ht
      rw [mem_canonize] at ht
      exact Value.typeOfVals_canonical m t ht

theorem Value.typeOfList_canonical :
    (l : List Value) → ∀ t ∈ Value.typeOfList l, TyCanonical t
  | [] => by simp [Value.typeOfList]
  | v :: vs => by
    intro t ht
    rw [Value.typeOfList] at ht
    rcases List.mem_cons.mp ht with rfl | ht
    · exact Value.typeOf_canonical v
    · exact Value.typeOfList_canonical vs t ht

theorem Value.typeOfKeys_canonical :
    (m : List (Value × Value)) → ∀ t ∈ Value.typeOfKeys m, TyCanonical t
  | [] => by simp [Value.typeOfKeys]
  | (k, v) :: rest => by
    intro t ht
    rw [Value.typeOfKeys] at ht
    rcases List.mem_cons.mp ht with rfl | ht
    · exact Value.typeOf_canonical k
    · exact Value.typeOfKeys_canonical rest t ht

theorem Value.typeOfVals_canonical :
    (m : List (Value × Value)) → ∀ t ∈ Value.typeOfVals m, TyCanonical t
  | [] => by simp [Value.typeOfVals]
  | (k, v) :: rest => by
    intro t ht
    rw [Value.typeOfVals] at ht
    rcases List.mem_cons.mp ht with rfl | ht
    · exact Value.typeOf_canonical v
    · exact Value.typeOfVals_canonical rest t ht
end

/-- Rust `enum Expr` (lib.rs 146-151): `Var(String, Vec<Type>, Box<Expr>)`,
`Value(Value)`, `If(Box<Expr>, Box<Expr>)` (the `If` variant is named `ifE`
because `if` is reserved in Lean). -/
inductive Expr where
  | var : String → List Ty → Expr → Expr
  | value : Value → Expr
  | ifE : Expr → Expr → Expr

/-- Rust `impl PartialEq for Expr` (lib.rs 159-169): `Var` compares name and
type list only (the boxed value is ignored), `Value` compares structurally,
and every other combination — including `If` against `If` — is `false`. -/
def Expr.eqb : Expr → Expr → Bool
  | .var n1 t1 _, .var n2 t2 _ => n1 == n2 && decide (t1 = t2)
  | .value v1, .value v2 => Value.beq v1 v2
  | _, _ => false

/-- Rust `struct Parser` (lib.rs 186-190): the full input as a `Vec<char>`
plus a monotonically increasing cursor index. -/
structure Parser where
  body : List Char
  index : Nat
deriving DecidableEq

/-- Rust `Parser::new` (lib.rs 193-198). -/
def Parser.new (s : String) : Parser := ⟨s.toList, 0⟩

/-- Rust `Parser::is_in_bounds` (lib.rs 347-349): `index + offset < len`
(strict). -/
def Parser.is_in_bounds (p : Parser) (offset : Nat) : Bool :=
  decide (p.index + offset < p.body.length)

/-- Rust `Parser::curr_char` (lib.rs 407-413): `Some(body[index])` under the
`is_in_bounds(0)` guard, which is exactly `body.get(index)`. -/
def Parser.curr_char (p : Parser) : Option Char :=
  p.body[p.index]?

/-- Rust `Parser::peek` (lib.rs 371-377): `Some(&body[index..index+offset])`
when `is_in_bounds(offset)` holds, `None` otherwise. -/
def Parser.peek (p : Parser) (offset : Nat) : Option (List Char) :=
  if p.is_in_bounds offset then some ((p.body.drop p.index).take offset) else none

/-- Rust `Parser::skip` (lib.rs 403-405): advance by `offset` without
validation. -/
def Parser.skip (p : Parser) (offset : Nat) : Parser :=
  ⟨p.body, p.index + offset⟩

/-- Rust `Parser::consume_char` (lib.rs 435-442): advance one position if the
current character matches, reporting whether it did. -/
def Parser.consume_char (p : Parser) (c : Char) : Bool × Parser :=
  if p.curr_char = some c then (true, p.skip 1) else (false, p)

/-- Rust `char::is_ascii_whitespace`: space, tab, newline, form feed,
carriage return. -/
def isAsciiWhitespace (c : Char) : Bool :=
  c = ' ' || c = '\t' || c = '\n' || c = '\x0C' || c = '\r'

def Parser.skip_whitespace_go : Nat → Parser → Parser
  | 0, p => p
  | fuel + 1, p =>
    match p.curr_char with
    | some c => if isAsciiWhitespace c then Parser.skip_whitespace_go fuel (p.skip 1) else p
    | none => p

/-- Rust `Parser::skip_whitespace` (lib.rs 341-345): the loop advances one
position per iteration while in bounds, so `len - index` fuel is exact. -/
def Parser.skip_whitespace (p : Parser) : Parser :=
  Parser.skip_whitespace_go (p.body.length - p.index) p

/-- Rust `Parser::is_true` (lib.rs 333-335). -/
def Parser.is_true (p : Parser) : Bool := p.peek 4 == some ['t', 'r', 'u', 'e']

/-- Rust `Parser::is_false` (lib.rs 337-339). -/
def Parser.is_false (p : Parser) : Bool := p.peek 5 == some ['f', 'a', 'l', 's', 'e']

/-- Rust `Parser::is_bool` (lib.rs 228-230). -/
def Parser.is_bool (p : Parser) : Bool := p.is_true || p.is_false

/-- Rust `Parser::is_integer` (lib.rs 522-524). -/
def Parser.is_integer (p : Parser) : Bool := p.curr_char.any Char.isDigit

/-- Rust `Parser::is_string` (lib.rs 387-389). -/
def Parser.is_string (p : Parser) : Bool := p.curr_char == some '"'

/-- Rust `Parser::is_list` (lib.rs 351-353). -/
def Parser.is_list (p : Parser) : Bool := p.curr_char == some '['

/-- Rust `Parser::is_map` (lib.rs 518-520). -/
def Parser.is_map (p : Parser) : Bool := p.curr_char == some '{'

/-- Rust `Parser::is_value` (lib.rs 498-500). -/
def Parser.is_value (p : Parser) : Bool :=
  p.is_integer || p.is_string || p.is_bool || p.is_list || p.is_map

/-- Rust `Parser::is_var_dec` (lib.rs 490-492). -/
def Parser.is_var_dec (p : Parser) : Bool := p.peek 3 == some ['l', 'e', 't']

/-- Rust `Parser::is_expr` (lib.rs 220-222). -/
def Parser.is_expr (p : Parser) : Bool := p.is_var_dec || p.is_value

/-- Rust `Parser::is_type_decl` (lib.rs 232-234). -/
def Parser.is_type_decl (p : Parser) : Bool := p.curr_char == some ':'

/-- Rust `Parser::is_int_type` (lib.rs 266-268). -/
def Parser.is_int_type (p : Parser) : Bool := p.peek 3 == some ['i', '6', '4']

/-- Rust `Parser::is_bool_type` (lib.rs 275-277). -/
def Parser.is_bool_type (p : Parser) : Bool := p.peek 4 == some ['b', 'o', 'o', 'l']

/-- Rust `Parser::is_str_type` (lib.rs 284-286). -/
def Parser.is_str_type (p : Parser) : Bool := p.peek 3 == some ['s', 't', 'r']

/-- Rust `Parser::is_list_type` (lib.rs 293-295). -/
def Parser.is_list_type (p : Parser) : Bool := p.peek 4 == some ['l', 'i', 's', 't']

/-- Rust `Parser::is_map_type` (lib.rs 311-313). -/
def Parser.is_map_type (p : Parser) : Bool := p.peek 3 == some ['m', 'a', 'p']

/-- Rust `Parser::consume_true` (lib.rs 425-428). -/
def Parser.consume_true (p : Parser) : Value × Parser := (Value.bool true, p.skip 4)

/-- Rust `Parser::consume_false` (lib.rs 430-433). -/
def Parser.consume_false (p : Parser) : Value × Parser := (Value.bool false, p.skip 5)

/-- Rust `Parser::consume_bool` (lib.rs 415-423); the final branch panics. -/
def Parser.consume_bool (p : Parser) : Option (Value × Parser) :=
  if p.is_true then some p.consume_true
  else if p.is_false then some p.consume_false
  else none

def Parser.consume_digits_go : Nat → Parser → List Nat × Parser
  | 0, p => ([], p)
  | fuel + 1, p =>
    match p.curr_char with
    | some c =>
      if c.isDigit then
        let r := Parser.consume_digits_go fuel (p.skip 1)
        ((c.toNat - '0'.toNat) :: r.1, r.2)
      else ([], p)
    | none => ([], p)

/-- The digit-collection loop of `Parser::consume_integer` (lib.rs 528-532):
`to_digit(10)` of each character of the maximal digit run, cursor advanced
past the run. -/
def Parser.consume_digits (p : Parser) : List Nat × Parser :=
  Parser.consume_digits_go (p.body.length - p.index) p

/-- The accumulation of `Parser::consume_integer` (lib.rs 533-537): digits
are reversed and summed as `digit * 10_u32.pow(i) as i64`; the `u32`
multiplication and power wrap modulo `2 ^ 32` (with debug assertions the
overflow panics instead). -/
def integer_from_digits (ds : List Nat) : Int :=
  ((ds.reverse.enum.map (fun e => (e.2 * 10 ^ e.1) % 2 ^ 32)).sum : Nat)

/-- Rust `Parser::consume_integer` (lib.rs 526-538). -/
def Parser.consume_integer (p : Parser) : Value × Parser :=
  let r := p.consume_digits
  (Value.integer (integer_from_digits r.1), r.2)

def Parser.consume_string_go : Nat → Parser → Option (List Char × Parser)
  | 0, _ => none
  | fuel + 1, p =>
    match p.curr_char with
    | none => none
    | some c =>
      if c = '"' then some ([], p)
      else
        match Parser.consume_string_go fuel (p.skip 1) with
        | none => none
        | some (cs, p') => some (c :: cs, p')

/-- The copy loop of `Parser::consume_string` (lib.rs 394-397): characters
verbatim until the next `'"'`; reaching the end of input panics (`unwrap` on
`None`), modelled as `none`. -/
def Parser.consume_string_chars (p : Parser) : Option (List Char × Parser) :=
  Parser.consume_string_go (p.body.length - p.index) p

/-- Rust `Parser::consume_string` (lib.rs 391-401): consume the opening
quote, copy verbatim to the closing quote, consume the closing quote — and
then additionally `consume_char(';')`. -/
def Parser.consume_string (p : Parser) : Option (Value × Parser) :=
  let p1 := (p.consume_char '"').2
  match p1.consume_string_chars with
  | none => none
  | some (cs, p2) =>
    let p3 := (p2.consume_char '"').2
    let p4 := (p3.consume_char ';').2
    some (Value.string (String.mk cs), p4)

def Parser.consume_name_go : Nat → Parser → List Char × Parser
  | 0, p => ([], p)
  | fuel + 1, p =>
    match p.curr_char with
    | some c =>
      if c.isAlpha then
        let r := Parser.consume_name_go fuel (p.skip 1)
        (c :: r.1, r.2)
      else ([], p)
    | none => ([], p)

/-- Rust `Parser::consume_name` (lib.rs 540-547): the maximal run of ASCII
alphabetic characters at the cursor. -/
def Parser.consume_name (p : Parser) : String × Parser :=
  let r := Parser.consume_name_go (p.body.length - p.index) p
  (String.mk r.1, r.2)

/-- Rust `HashMap::insert` on the association-list model: replace the value
of a structurally equal key (keeping the stored key), otherwise append. -/
def insert_entry : List (Value × Value) → Value → Value → List (Value × Value)
  | [], k, v => [(k, v)]
  | (k', v') :: rest, k, v =>
    if Value.beq k k' then (k', v) :: rest else (k', v') :: insert_entry rest k v

/- Rust `Parser::consume_value` / `consume_list` / `consume_map` /
`consume_map_entry` (lib.rs 502-516, 355-369, 475-488, 464-473).  The final
`else` of `consume_value` panics.  Loops and mutual recursion take fuel; each
loop iteration re-checks its condition exactly as the Rust `while` does. -/
mutual
def Parser.consume_value : Nat → Parser → Option (Value × Parser)
  | 0, _ => none
  | fuel + 1, p =>
    if p.is_integer then some p.consume_integer
    else if p.is_string then p.consume_string
    else if p.is_bool then p.consume_bool
    else if p.is_list then Parser.consume_list fuel p
    else if p.is_map then Parser.consume_map fuel p
    else none

def Parser.consume_list : Nat → Parser → Option (Value × Parser)
  | 0, _ => none
  | fuel + 1, p =>
    let p1 := (p.consume_char '[').2
    match Parser.consume_list_loop fuel [] p1 with
    | none => none
    | some (vs, p2) =>
      let p3 := (p2.consume_char ']').2
      some (Value.list vs, p3)

def Parser.consume_list_loop : Nat → List Value → Parser → Option (List Value × Parser)
  | 0, _, _ => none
  | fuel + 1, acc, p =>
    if p.curr_char = some ']' then some (acc, p)
    else
      let p1 := p.skip_whitespace
      match Parser.consume_value fuel p1 with
      | none => none
      | some (v, p2) =>
        let p3 := p2.skip_whitespace
        let p4 := (p3.consume_char ',').2
        let p5 := p4.skip_whitespace
        Parser.consume_list_loop fuel (acc ++ [v]) p5

def Parser.consume_map : Nat → Parser → Option (Value × Parser)
  | 0, _ => none
  | fuel + 1, p =>
    let p1 := (p.consume_char '{').2
    let p2 := p1.skip_whitespace
    match Parser.consume_map_loop fuel [] p2 with
    | none => none
    | some (entries, p3) =>
      let p4 := (p3.consume_char '}').2
      let p5 := p4.skip_whitespace
      some (Value.map entries, p5)

def Parser.consume_map_loop :
    Nat → List (Value × Value) → Parser → Option (List (Value × Value) × Parser)
  | 0, _, _ => none
  | fuel + 1, acc, p =>
    if p.is_value && !(p.curr_char == some '}') then
      match Parser.consume_map_entry fuel p with
      | none => none
      | some (k, v, p1) =>
        let p2 := (p1.consume_char ',').2
        let p3 := p2.skip_whitespace
        Parser.consume_map_loop fuel (insert_entry acc k v) p3
    else some (acc, p)

def Parser.consume_map_entry : Nat → Parser → Option (Value × Value × Parser)
  | 0, _ => none
  | fuel + 1, p =>
    let p1 := p.skip_whitespace
    match Parser.consume_value fuel p1 with
    | none => none
    | some (k, p2) =>
      let p3 := p2.skip_whitespace
      let p4 := (p3.consume_char ':').2
      let p5 := p4.skip_whitespace
      match Parser.consume_value fuel p5 with
      | none => none
      | some (v, p6) =>
        let p7 := p6.skip_whitespace
        some (k, v, p7)
end

/- Rust `Parser::consume_type_decl` / `consume_list_type` / `consume_map_type`
(lib.rs 236-264, 297-309, 315-331) and the per-atom dispatch inside the
`consume_type_decl` loop (whose final `else` panics).  The collected atoms go
through a `HashSet` and a sort — `canonize`. -/
mutual
def Parser.consume_type_decl : Nat → Parser → Option (List Ty × Parser)
  | 0, _ => none
  | fuel + 1, p =>
    match Parser.consume_type_atoms fuel [] ((p.consume_char ':').2.skip_whitespace) with
    | none => none
    | some (acc, p') => some (canonize acc, p')

def Parser.consume_type_atoms : Nat → List Ty → Parser → Option (List Ty × Parser)
  | 0, _, _ => none
  | fuel + 1, acc, p =>
    if p.curr_char.any Char.isAlpha then
      match Parser.consume_type_atom fuel p with
      | none => none
      | some (t, p1) =>
        let p2 := p1.skip_whitespace
        let r := p2.consume_char '|'
        if r.1 then
          Parser.consume_type_atoms fuel (acc ++ [t]) r.2.skip_whitespace
        else some (acc ++ [t], r.2)
    else some (acc, p)

def Parser.consume_type_atom : Nat → Parser → Option (Ty × Parser)
  | 0, _ => none
  | fuel + 1, p =>
    if p.is_int_type then some (Ty.integer, p.skip 3)
    else if p.is_bool_type then some (Ty.bool, p.skip 4)
    else if p.is_str_type then some (Ty.string, p.skip 3)
    else if p.is_list_type then Parser.consume_list_type fuel p
    else if p.is_map_type then Parser.consume_map_type fuel p
    else none

def Parser.consume_list_type : Nat → Parser → Option (Ty × Parser)
  | 0, _ => none
  | fuel + 1, p =>
    let p1 := (p.consume_char 'l').2
    let p2 := (p1.consume_char 'i').2
    let p3 := (p2.consume_char 's').2
    let p4 := (p3.consume_char 't').2
    let p5 := p4.skip_whitespace
    let p6 := (p5.consume_char '[').2
    let p7 := p6.skip_whitespace
    match Parser.consume_type_decl fuel p7 with
    | none => none
    | some (ts, p8) =>
      let p9 := p8.skip_whitespace
      let p10 := (p9.consume_char ']').2
      let p11 := p10.skip_whitespace
      some (Ty.list ts, p11)

def Parser.consume_map_type : Nat → Parser → Option (Ty × Parser)
  | 0, _ => none
  | fuel + 1, p =>
    let p1 := (p.consume_char 'm').2
    let p2 := (p1.consume_char 'a').2
    let p3 := (p2.consume_char 'p').2
    let p4 := p3.skip_whitespace
    let p5 := (p4.consume_char '[').2
    let p6 := p5.skip_whitespace
    match Parser.consume_type_decl fuel p6 with
    | none => none
    | some (ks, p7) =>
      let p8 := p7.skip_whitespace
      let p9 := (p8.consume_char ',').2
      let p10 := p9.skip_whitespace
      match Parser.consume_type_decl fuel p10 with
      | none => none
      | some (vs, p11) =>
        let p12 := p11.skip_whitespace
        let p13 := (p12.consume_char ']').2
        let p14 := p13.skip_whitespace
        some (Ty.map ks vs, p14)
end

/-- Rust `Parser::consume_var` (lib.rs 444-462): `let`, name, optional type
annotation (stored as returned by `consume_type_decl`), `=`, value; when the
annotation list is empty the single inferred type of the value is used. -/
def Parser.consume_var (fuel : Nat) (p : Parser) : Option (Expr × Parser) :=
  let p1 := (p.skip 3).skip_whitespace
  let r := p1.consume_name
  let p2 := r.2.skip_whitespace
  match (if p2.is_type_decl then Parser.consume_type_decl fuel p2 else some ([], p2)) with
  | none => none
  | some (types, p3) =>
    let p4 := (p3.consume_char '=').2
    let p5 := p4.skip_whitespace
    match Parser.consume_value fuel p5 with
    | none => none
    | some (v, p6) =>
      let types' := if types.isEmpty then [v.type_of] else types
      let p7 := p6.skip_whitespace
      let p8 := (p7.consume_char ';').2
      some (Expr.var r.1 types' (Expr.value v), p8)

/-- The `while self.is_expr()` loop of `Parser::parse` (lib.rs 203-212): each
statement is a `let` declaration or a bare value, followed by optional
whitespace, an optional `;` (the returned `bool` is discarded), and optional
whitespace. -/
def Parser.parse_loop : Nat → List Expr → Parser → Option (List Expr × Parser)
  | 0, _, _ => none
  | fuel + 1, acc, p =>
    if p.is_expr then
      match
        (if p.is_var_dec then Parser.consume_var fuel p
         else
           match Parser.consume_value fuel p with
           | none => none
           | some (v, p') => some (Expr.value v, p')) with
      | none => none
      | some (e, p1) =>
        let p2 := p1.skip_whitespace
        let p3 := (p2.consume_char ';').2
        let p4 := p3.skip_whitespace
        Parser.parse_loop fuel (acc ++ [e]) p4
    else some (acc, p)

/-- Rust `Parser::sanity_check` (lib.rs 224-226): the cursor must have
reached the end of the input. -/
def Parser.sanity_check (p : Parser) : Bool := p.index == p.body.length

/-- `Parser::parse` up to (and including) the final `skip_whitespace`, with
the loop's result and the final cursor state exposed. -/
def Parser.parse_run (s : String) : Option (List Expr × Parser) :=
  match Parser.parse_loop (4 * s.length + 16) [] (Parser.new s).skip_whitespace with
  | none => none
  | some (es, p) => some (es, p.skip_whitespace)

/-- Rust `Parser::parse` (lib.rs 200-218): run the statement loop and fail
(`panic!("Did not parse all the way to the end")`) unless `sanity_check`
holds; no partial result is returned. -/
def Parser.parse (s : String) : Option (List Expr) :=
  match Parser.parse_run s with
  | none => none
  | some (es, p) => if p.sanity_check then some es else none

theorem getElem?_eq_head_drop : ∀ (l : List Char) (n : Nat), l[n]? = (l.drop n).head?
  | [], n => by simp
  | a :: t, 0 => by simp
  | a :: t, n + 1 => by
    rw [List.getElem?_cons_succ, List.drop_succ_cons]
    exact getElem?_eq_head_drop t n

theorem Parser.curr_char_eq_head_drop (p : Parser) :
    p.curr_char = (p.body.drop p.index).head? :=
  getElem?_eq_head_drop p.body p.index

theorem drop_cons_succ (l : List Char) (n : Nat) (c : Char) (t : List Char)
    (h : l.drop n = c :: t) : l.drop (n + 1) = t := by
  rw [← List.tail_drop, h]
  rfl

theorem lt_length_of_drop_cons (l : List Char) (n : Nat) (c : Char) (t : List Char)
    (h : l.drop n = c :: t) : n < l.length := by
  by_contra hle
  rw [List.drop_eq_nil_of_le (by omega)] at h
  exact absurd h (by simp)

/-- The copy loop of `consume_string`: with `content ++ '"' :: rest` ahead of
the cursor and no quote inside `content`, the loop returns `content` verbatim
and stops on the closing quote. -/
theorem consume_string_chars_spec :
    ∀ (content : List Char) (p : Parser) (rest : List Char),
      p.body.drop p.index = content ++ '"' :: rest → '"' ∉ content →
      Parser.consume_string_chars p = some (content, ⟨p.body, p.index + content.length⟩)
  | [], p, rest, h, _ => by
    have hc : p.curr_char = some '"' := by
      rw [Parser.curr_char_eq_head_drop, h]
      rfl
    have hlt : p.index < p.body.length :=
      lt_length_of_drop_cons p.body p.index '"' rest (by simpa using h)
    obtain ⟨m, hm⟩ : ∃ m, p.body.length - p.index = m + 1 :=
      ⟨p.body.length - p.index - 1, by omega⟩
    rw [Parser.consume_string_chars, hm, Parser.consume_string_go, hc]
    simp
  | c :: content, p, rest, h, hmem => by
    have hc : p.curr_char = some c := by
      rw [Parser.curr_char_eq_head_drop, h]
      rfl
    have hne : ¬(c = '"') := fun hcq => hmem (by rw [← hcq]; exact List.mem_cons_self c content)
    have hlt : p.index < p.body.length :=
      lt_length_of_drop_cons p.body p.index c (content ++ '"' :: rest) (by simpa using h)
    have hdrop : p.body.drop (p.index + 1) = content ++ '"' :: rest :=
      drop_cons_succ p.body p.index c (content ++ '"' :: rest) (by simpa using h)
    have ih := consume_string_chars_spec content (p.skip 1) rest hdrop
      (fun hx => hmem (List.mem_cons.mpr (Or.inr hx)))
    obtain ⟨m, hm⟩ : ∃ m, p.body.length - p.index = m + 1 :=
      ⟨p.body.length - p.index - 1, by omega⟩
    have hm' : (p.skip 1).body.length - (p.skip 1).index = m := by
      rw [Parser.skip]
      simp only []
      omega
    rw [Parser.consume_string_chars, hm'] at ih
    rw [Parser.consume_string_chars, hm, Parser.consume_string_go, hc]
    simp only []
    rw [if_neg hne, ih]
    simp only [Parser.skip, List.length_cons]
    have harith : p.index + 1 + content.length = p.index + (content.length + 1) := by omega
    rw [harith]

/-- C6 (amended): for every string literal at the cursor — an opening quote,
zero or more non-quote characters `content`, a closing quote — `consume_string`
returns `Value::String(content)` with the characters copied verbatim and
advances the cursor exactly past the closing quote, **except** that it
additionally consumes a single `';'` when one immediately follows the closing
quote (the stray `consume_char(';')` at lib.rs 399). -/
theorem consume_string_verbatim_amended (p : Parser) (content rest : List Char)
    (h : p.body.drop p.index = '"' :: (content ++ '"' :: rest)) (hmem : '"' ∉ content) :
    Parser.consume_string p
      = some (Value.string (String.mk content),
          ⟨p.body, p.index + content.length + 2
            + (if rest.head? = some ';' then 1 else 0)⟩) := by
  have hq : p.curr_char = some '"' := by
    rw [Parser.curr_char_eq_head_drop, h]
    rfl
  have e1 : p.consume_char '"' = (true, p.skip 1) := by
    rw [Parser.consume_char, if_pos hq]
  have hdrop1 : p.body.drop (p.index + 1) = content ++ '"' :: rest :=
    drop_cons_succ p.body p.index '"' _ h
  have hchars : Parser.consume_string_chars (p.skip 1)
      = some (content, ⟨p.body, p.index + 1 + content.length⟩) :=
    consume_string_chars_spec content (p.skip 1) rest hdrop1 hmem
  have hdrop2 : p.body.drop (p.index + 1 + content.length) = '"' :: rest := by
    have hd := List.drop_drop content.length (p.index + 1) p.body
    rw [hdrop1, List.drop_left] at hd
    exact hd.symm
  have hq2 : (⟨p.body, p.index + 1 + content.length⟩ : Parser).curr_char = some '"' := by
    rw [Parser.curr_char_eq_head_drop]
    simp only []
    rw [hdrop2]
    rfl
  have e2 : (⟨p.body, p.index + 1 + content.length⟩ : Parser).consume_char '"'
      = (true, ⟨p.body, p.index + 1 + content.length + 1⟩) := by
    rw [Parser.consume_char, if_pos hq2]
    rfl
  have hdrop3 : p.body.drop (p.index + 1 + content.length + 1) = rest :=
    drop_cons_succ p.body _ '"' rest hdrop2
  have hq3 : (⟨p.body, p.index + 1 + content.length + 1⟩ : Parser).curr_char = rest.head? := by
    rw [Parser.curr_char_eq_head_drop]
    simp only []
    rw [hdrop3]
  by_cases hsc : rest.head? = some ';'
  · have e3 : (⟨p.body, p.index + 1 + content.length + 1⟩ : Parser).consume_char ';'
        = (true, ⟨p.body, p.index + 1 + content.length + 1 + 1⟩) := by
      rw [Parser.consume_char, if_pos (by rw [hq3]; exact hsc)]
      rfl
    simp only [Parser.consume_string, e1, hchars, e2, e3, hsc]
    have harith : p.index + 1 + content.length + 1 + 1
        = p.index + content.length + 2 + 1 := by omega
    rw [harith]
    simp
  · have e3 : (⟨p.body, p.index + 1 + content.length + 1⟩ : Parser).consume_char ';'
        = (false, ⟨p.body, p.index + 1 + content.length + 1⟩) := by
      rw [Parser.consume_char, if_neg (by rw [hq3]; exact hsc)]
    simp only [Parser.consume_string, e1, hchars, e2, e3, if_neg hsc]
    have harith : p.index + 1 + content.length + 1
        = p.index + content.length + 2 + 0 := by omega
    rw [harith]

def input_c3 : String := "let x: bool = 10;"
def input_c5 : String := "9999999999"
def input_c5_small : String := "123"
def input_c6 : List Char := ['"', 'a', 'b', '"', ';']
def input_c7_empty_nospace : String := "[]"
def input_c7_empty_space : String := "[ ]"
def input_c7_spaced : String := "[ 1 ]"
def input_c7_trailing : String := "[1, ]"
def input_c8_first : String := "let x: i64 | bool | str = false;"
def input_c8_second : String := "let x: bool | str | i64 = false;"
def input_c9_bad : String := "10; garbage"
def input_c9_ok : String := "10;"

/-- Two `Value::Map`s holding the same key-value pairs `(0 ↦ 1, 2 ↦ 3)`
whose entries are iterated in opposite orders. -/
def c1_map_fst : Value :=
  Value.map [(Value.integer 0, Value.integer 1), (Value.integer 2, Value.integer 3)]

def c1_map_snd : Value :=
  Value.map [(Value.integer 2, Value.integer 3), (Value.integer 0, Value.integer 1)]

/-- C1: the claim — structurally equal maps always hash identically — fails
on the code.  `impl Hash for Value` feeds map entries to the hasher in
iteration order (lib.rs 32-37), so the two structurally equal maps
`{0: 1, 2: 3}` iterated in opposite orders produce different write streams
and hence different hash values under any sequential hasher (such as the
concrete 64-bit sequential hasher `Value.hash_with`, and Rust's default
SipHash): a violation of the `Hash`/`Eq` contract the spec states as an
explicit invariant. -/
theorem map_hash_order_dependent :
    Value.beq c1_map_fst c1_map_snd = true
    ∧ Value.hash_stream c1_map_fst ≠ Value.hash_stream c1_map_snd
    ∧ Value.hash_with c1_map_fst ≠ Value.hash_with c1_map_snd :=
  ⟨by decide, by decide, by decide⟩

/-- C2: `type_of` is canonical and idempotent: every member list inside a
resulting `Type::List`/`Type::Map` is strictly sorted (hence deduplicated)
with canonical members, re-canonicalizing a member list changes nothing, the
result depends only on the *set* of member types (so it is independent of
order and multiplicity of the original elements), and the lists `[1,2,2,3]`
and `[3,2,1]` both infer `List([Integer])`. -/
theorem type_of_canonical_claim :
    (∀ v : Value, TyCanonical (Value.type_of v))
    ∧ (∀ ts : List Ty, canonize (canonize ts) = canonize ts)
    ∧ (∀ l1 l2 : List Value,
        sameTySet (Value.typeOfList l1) (Value.typeOfList l2) = true →
        Value.type_of (Value.list l1) = Value.type_of (Value.list l2))
    ∧ Value.type_of
        (Value.list [Value.integer 1, Value.integer 2, Value.integer 2, Value.integer 3])
      = Ty.list [Ty.integer]
    ∧ Value.type_of (Value.list [Value.integer 3, Value.integer 2, Value.integer 1])
      = Ty.list [Ty.integer] := by
  refine ⟨Value.typeOf_canonical, canonize_idem, ?_, rfl, rfl⟩
  intro l1 l2 h
  rw [Value.type_of, Value.type_of]
  exact congrArg Ty.list (canonize_eq_of_mem_iff _ _ ((sameTySet_iff _ _).mp h))

/-- Witness for C2 at the concrete lists `[1,2,2,3]` and `[3,2,1]`. -/
theorem type_of_canonical_claim_witness :
    Value.type_of
        (Value.list [Value.integer 1, Value.integer 2, Value.integer 2, Value.integer 3])
      = Value.type_of (Value.list [Value.integer 3, Value.integer 2, Value.integer 1]) :=
  type_of_canonical_claim.2.2.1 _ _ (by decide)

/-- C3: a variable declaration with an explicit annotation stores the
annotation as-is and never checks it against the inferred type of the bound
value: `let x: bool = 10;` parses to `Var("x", [Bool], Value(Integer(10)))`
even though `type_of(Integer(10)) = Integer ≠ Bool`. -/
theorem annotation_stored_unchecked :
    Parser.parse input_c3 = some [Expr.var "x" [Ty.bool] (Expr.value (Value.integer 10))]
    ∧ Value.type_of (Value.integer 10) = Ty.integer
    ∧ Ty.bool ≠ Ty.integer :=
  ⟨rfl, rfl, by decide⟩

/-- C4 (counterexample): the claim says `peek(n)` succeeds whenever at least
`n` characters remain; but with body `['a','b']`, cursor `0` and `n = 2`,
exactly `2` characters remain and `peek 2` still returns `none`, because
`is_in_bounds` tests `index + n < len` strictly (lib.rs 348). -/
theorem peek_exact_remaining_counterexample :
    (⟨['a', 'b'], 0⟩ : Parser).index + 2 ≤ (⟨['a', 'b'], 0⟩ : Parser).body.length
    ∧ Parser.peek ⟨['a', 'b'], 0⟩ 2 = none := by decide

/-- C4 (amended): `peek(n)` returns the `n` characters at the cursor exactly
when *more than* `n` characters remain (`index + n < len`); it signals
insufficient input whenever `n` or fewer remain. -/
theorem peek_strict_bound (p : Parser) (n : Nat) :
    (p.index + n < p.body.length →
      Parser.peek p n = some ((p.body.drop p.index).take n)
        ∧ ((p.body.drop p.index).take n).length = n)
    ∧ (p.body.length ≤ p.index + n → Parser.peek p n = none) := by
  constructor
  · intro h
    constructor
    · rw [Parser.peek, if_pos]
      rw [Parser.is_in_bounds]
      exact decide_eq_true h
    · rw [List.length_take, List.length_drop]
      omega
  · intro h
    have hb : p.is_in_bounds n = false := by
      rw [Parser.is_in_bounds]
      simp only [decide_eq_false_iff_not]
      omega
    simp [Parser.peek, hb]

/-- Witness for C4 (amended) at body `['a','b','c']`, cursor `0`, `n = 2`. -/
theorem peek_strict_bound_witness :
    Parser.peek ⟨['a', 'b', 'c'], 0⟩ 2
      = some ((((⟨['a', 'b', 'c'], 0⟩ : Parser).body.drop 0).take 2))
    ∧ ((((⟨['a', 'b', 'c'], 0⟩ : Parser).body.drop 0).take 2)).length = 2 :=
  (peek_strict_bound ⟨['a', 'b', 'c'], 0⟩ 2).1 (by decide)

/-- C5: the claim — `consume_integer` returns the decimal value of the digit
run whenever it fits in `i64` — fails: the accumulation computes
`digit * 10_u32.pow(i)` in 32-bit unsigned arithmetic (lib.rs 535), so the
ten-digit run `"9999999999"` (which fits easily in `i64`) wraps to
`Integer(1410065407)` under wrapping semantics (and panics with debug
overflow checks) instead of producing `Integer(9999999999)`.  Runs whose
per-digit products stay below `2^32` (at most nine digits) are parsed
correctly, as the `"123"` conjunct shows. -/
theorem consume_integer_u32_overflow :
    Parser.consume_integer ⟨input_c5.toList, 0⟩
      = (Value.integer 1410065407, ⟨input_c5.toList, 10⟩)
    ∧ (1410065407 : Int) ≠ 9999999999
    ∧ Parser.consume_integer ⟨input_c5_small.toList, 0⟩
      = (Value.integer 123, ⟨input_c5_small.toList, 3⟩) :=
  ⟨rfl, by decide, rfl⟩

/-- C6 (counterexample): on the input `"ab";` the closing quote sits at
position 3, so "advances exactly past the closing quote" means final cursor
4; `consume_string` instead ends at cursor 5, because it also consumes the
`';'` beyond the closing quote (lib.rs 399). -/
theorem consume_string_extra_semicolon_counterexample :
    Parser.consume_string ⟨input_c6, 0⟩ = some (Value.string "ab", ⟨input_c6, 5⟩)
    ∧ (Parser.consume_string ⟨input_c6, 0⟩).map (fun r => r.2.index) = some 5
    ∧ (5 : Nat) ≠ 4 :=
  ⟨rfl, rfl, by decide⟩

/-- Witness for C6 (amended) on the literal `"a"` followed by `';'`. -/
theorem consume_string_verbatim_amended_witness :
    Parser.consume_string ⟨['"', 'a', '"', ';'], 0⟩
      = some (Value.string (String.mk ['a']),
          ⟨['"', 'a', '"', ';'], 0 + (['a'] : List Char).length + 2
            + (if ([';'] : List Char).head? = some ';' then 1 else 0)⟩) :=
  consume_string_verbatim_amended ⟨['"', 'a', '"', ';'], 0⟩ ['a'] [';'] (by decide) (by decide)

/-- C7 (counterexample): the claim says whitespace is tolerated between the
brackets of an empty list and `"[ ]"` parses to `Value(List([]))`; in fact
`consume_list` checks for `']'` *before* skipping whitespace (lib.rs 358), so
on `"[ ]"` it calls `consume_value` at `']'`, which panics — the parse
fails. -/
theorem empty_list_space_counterexample :
    Parser.parse input_c7_empty_space = none
    ∧ (none : Option (List Expr)) ≠ some [Expr.value (Value.list [])] :=
  ⟨rfl, by simp⟩

/-- C7 (amended): whitespace is tolerated around the element tokens and
commas of a list literal (`"[ 1 ]"` and `"[1, ]"` both parse), but an empty
list's `']'` must immediately follow `'['`: `"[]"` yields `Value(List([]))`
while `"[ ]"` fails. -/
theorem list_whitespace_amended :
    Parser.parse input_c7_empty_nospace = some [Expr.value (Value.list [])]
    ∧ Parser.parse input_c7_spaced = some [Expr.value (Value.list [Value.integer 1])]
    ∧ Parser.parse input_c7_trailing = some [Expr.value (Value.list [Value.integer 1])]
    ∧ Parser.parse input_c7_empty_space = none :=
  ⟨rfl, rfl, rfl, rfl⟩

/-- C8: `consume_type_decl` deduplicates the parsed atoms (through a
`HashSet`) and sorts them into canonical order, so every successful result is
strictly sorted and duplicate-free — independent of the order the atoms were
written; in particular the annotations `i64 | bool | str` and
`bool | str | i64` in a declaration both yield `[Bool, Integer, String]`. -/
theorem type_decl_canonical_claim :
    (∀ (fuel : Nat) (p : Parser) (r : List Ty × Parser),
        Parser.consume_type_decl fuel p = some r →
        r.1.Pairwise (· < ·) ∧ r.1.Nodup)
    ∧ Parser.parse input_c8_first
        = some [Expr.var "x" [Ty.bool, Ty.integer, Ty.string] (Expr.value (Value.bool false))]
    ∧ Parser.parse input_c8_second
        = some [Expr.var "x" [Ty.bool, Ty.integer, Ty.string]
            (Expr.value (Value.bool false))] := by
  refine ⟨?_, rfl, rfl⟩
  intro fuel p r h
  cases fuel with
  | zero =>
    rw [Parser.consume_type_decl] at h
    exact absurd h (by simp)
  | succ f =>
    rw [Parser.consume_type_decl] at h
    cases hA : Parser.consume_type_atoms f [] ((p.consume_char ':').2.skip_whitespace) with
    | none =>
      rw [hA] at h
      exact absurd h (by simp)
    | some r' =>
      obtain ⟨acc, p'⟩ := r'
      rw [hA] at h
      simp only [] at h
      injection h with h'
      subst h'
      exact ⟨pairwise_canonize acc, nodup_canonize acc⟩

/-- Witness for C8 on the annotation `": i64 "`. -/
theorem type_decl_canonical_claim_witness :
    ([Ty.integer] : List Ty).Pairwise (· < ·) ∧ ([Ty.integer] : List Ty).Nodup :=
  type_decl_canonical_claim.1 20 ⟨": i64 ".toList, 0⟩
    ([Ty.integer], ⟨": i64 ".toList, 6⟩) (by decide)

/-- C9: whenever `parse` returns a result, the cursor (after the loop and the
final whitespace skip) has reached the input's end — `sanity_check` —
otherwise the whole parse fails with no partial result; in particular
`"10; garbage"` fails even though its prefix `"10;"` parses. -/
theorem parse_requires_full_consumption :
    (∀ (s : String) (es : List Expr), Parser.parse s = some es →
      ∃ p : Parser, Parser.parse_run s = some (es, p) ∧ p.index = p.body.length)
    ∧ Parser.parse input_c9_bad = none := by
  constructor
  · intro s es h
    rw [Parser.parse] at h
    cases hr : Parser.parse_run s with
    | none =>
      rw [hr] at h
      exact absurd h (by simp)
    | some r =>
      obtain ⟨es', p⟩ := r
      rw [hr] at h
      simp only [] at h
      by_cases hs : p.sanity_check = true
      · rw [if_pos hs] at h
        injection h with h'
        subst h'
        refine ⟨p, rfl, ?_⟩
        rw [Parser.sanity_check] at hs
        exact beq_iff_eq.mp hs
      · rw [if_neg hs] at h
        exact absurd h (by simp)
  · rfl

/-- Witness for C9: `"10;"` parses, and its run indeed ends at the input's
end. -/
theorem parse_requires_full_consumption_witness :
    ∃ p : Parser, Parser.parse_run input_c9_ok = some ([Expr.value (Value.integer 10)], p)
      ∧ p.index = p.body.length :=
  parse_requires_full_consumption.1 input_c9_ok [Expr.value (Value.integer 10)] (by rfl)

/-- C10: `impl PartialEq for Expr` (lib.rs 159-169) has arms only for
`Var`/`Var` and `Value`/`Value` and a catch-all `_ => false`, so equality
between two `If` expressions is always `false` — even between an `If` and an
identically-constructed copy of itself: `Expr` equality is not reflexive on
the `If` variant. -/
theorem if_equality_never_true :
    (∀ a b c d : Expr, Expr.eqb (Expr.ifE a b) (Expr.ifE c d) = false)
    ∧ (∀ a b : Expr, Expr.eqb (Expr.ifE a b) (Expr.ifE a b) = false) :=
  ⟨fun _ _ _ _ => rfl, fun _ _ => rfl⟩
